import Mathlib

/-!
Shallow embedding of the edfsm repository: the event-driven state machine
contract, the machine runtime task, the path-keyed store and the path
string codec, with theorems checking the specification claims.
-/

/-- Result of on_event in the event-driven crate (src/event-driven/src/lib.rs):
the state transitioned, was unchanged, or was updated in place. -/
inductive OnEvent where
  | TransitionedState
  | UnchangedState
  | UpdatedState
deriving DecidableEq

/-- Type of step to perform in the event-driven crate: commands or events. -/
inductive Step (C E : Type) where
  | Command (c : C)
  | Event (e : E)
deriving DecidableEq

/-- Shallow embedding of the event-driven Fsm trait (src/event-driven/src/lib.rs).
Rust mutates the state and the effect handler in place; here each method
returns the updated values. -/
structure FsmED (S C E SE : Type) where
  for_command : S → C → SE → Option E × SE
  on_event : S → E → S × OnEvent
  on_change : S → E → SE → SE
  on_entry : S → SE → SE

/-- Embedding of the first match in Fsm::step of the event-driven crate:
a command is decided by for_command, an event is already decided. -/
def FsmED.decideInput (m : FsmED S C E SE) (s : S) (st : Step C E) (se : SE) :
    Option E × SE :=
  match st with
  | .Command c => m.for_command s c se
  | .Event e => (some e, se)

/-- Embedding of Fsm::step of the event-driven crate
(src/event-driven/src/lib.rs lines 77 to 96): decide an event, apply
on_event, call on_entry on a transition, call on_change and return the event
on a transition or update, otherwise return none. -/
def FsmED.step (m : FsmED S C E SE) (s : S) (st : Step C E) (se : SE) :
    S × SE × Option E :=
  match m.decideInput s st se with
  | (none, se1) => (s, se1, none)
  | (some e, se1) =>
    match m.on_event s e with
    | (s1, r) =>
      let se2 := match r with
        | .TransitionedState => m.on_entry s1 se1
        | _ => se1
      match r with
      | .TransitionedState => (s1, m.on_change s1 e se2, some e)
      | .UpdatedState => (s1, m.on_change s1 e se2, some e)
      | .UnchangedState => (s1, se2, none)

/-- Record of a side-effect callback made during a step, used to observe
which callbacks run and with which arguments. -/
inductive EDCall (S E : Type) where
  | change (s : S) (e : E)
  | entry (s : S)

/-- Wrap an event-driven machine so that its effect handler also records
every on_change and on_entry invocation. -/
def FsmED.instrument (m : FsmED S C E SE) : FsmED S C E (SE × List (EDCall S E)) where
  for_command := fun s c se => ((m.for_command s c se.1).1, ((m.for_command s c se.1).2, se.2))
  on_event := m.on_event
  on_change := fun s e se => (m.on_change s e se.1, se.2 ++ [.change s e])
  on_entry := fun s se => (m.on_entry s se.1, se.2 ++ [.entry s])

/-- Projection of a call trace to the on_change invocations, with the state
and event each call received. -/
def changeCalls (tr : List (EDCall S E)) : List (S × E) :=
  tr.filterMap fun c => match c with
    | .change s e => some (s, e)
    | _ => none

/-- Change classification of the edfsm core crate: a transition to a new
phase or an in-place update. -/
inductive Change where
  | Transitioned
  | Updated
deriving DecidableEq

/-- Input of the edfsm core crate: a command or an event. -/
inductive Input (C E : Type) where
  | Command (c : C)
  | Event (e : E)
deriving DecidableEq

/-- Modelled from the spec: the edfsm core crate is not under src (only its
users are), so its Fsm trait is embedded here with the method signatures
used by the in-src implementors (KvStore, the counter fixture): for_command
may emit an event and use the effect handler, on_event mutates state and
reports an optional Change, on_change reacts to a change with the new state. -/
structure FsmM (S C E SE : Type) where
  for_command : S → C → SE → Option E × SE
  on_event : S → E → S × Option Change
  on_change : S → E → SE → Change → SE

/-- Modelled from the spec: Fsm::step of the edfsm core crate, from spec
section 4.1. For a Command invoke for_command; for an Event the event is
already decided. If an event results apply on_event; if that yields a
Change invoke on_change with the post-mutation state and return the event;
otherwise return none. -/
def FsmM.step (m : FsmM S C E SE) (s : S) (i : Input C E) (se : SE) :
    S × SE × Option E :=
  match (match i with
         | .Command c => m.for_command s c se
         | .Event e => (some e, se)) with
  | (none, se1) => (s, se1, none)
  | (some e, se1) =>
    match m.on_event s e with
    | (s1, some ch) => (s1, m.on_change s1 e se1 ch, some e)
    | (s1, none) => (s1, se1, none)

/-- Embedding of the Hydrator adapter of edfsm-machine
(src/edfsm-machine/src/lib.rs lines 283 to 309): apply each fed event to
the state with on_event only, discarding the Change report. -/
def hydrate (m : FsmM S C E SE) (es : List E) (s : S) : S :=
  es.foldl (fun s e => (m.on_event s e).1) s

/-- One element of a Path (src/edfsm-kv-store/src/path.rs): a u64 number or
a name. Numbers are modelled as Nat (u64 range is a wellformedness side
condition) and names as their UTF-8 byte sequences. -/
inductive PathItem where
  | Number (n : Nat)
  | Name (s : List Nat)
deriving DecidableEq

/-- A Path is an ordered sequence of items (src/edfsm-kv-store/src/path.rs). -/
abbrev KvPath : Type := List PathItem

/-- The root path is the empty sequence. -/
def pathRoot : KvPath := []

/-- Lexicographic comparison of two lists given an element comparison,
modelling the derived Ord of Vec and of str in Rust. -/
def listCmp (cmp : A → A → Ordering) : List A → List A → Ordering
  | [], [] => .eq
  | [], _ :: _ => .lt
  | _ :: _, [] => .gt
  | a :: as, b :: bs =>
    match cmp a b with
    | .eq => listCmp cmp as bs
    | o => o

/-- Comparison of path items, modelling the derived Ord of PathItem:
Number sorts before Name, numbers by value, names byte-lexicographically. -/
def PathItem.cmp : PathItem → PathItem → Ordering
  | .Number a, .Number b => compare a b
  | .Number _, .Name _ => .lt
  | .Name _, .Number _ => .gt
  | .Name a, .Name b => listCmp compare a b

/-- Comparison of paths, modelling the derived Ord of Path (lexicographic
over the item sequence). -/
def KvPath.cmp (p q : KvPath) : Ordering := listCmp PathItem.cmp p q

/-- Keyed pairs a Path with a value, as in src/edfsm-kv-store/src/lib.rs. -/
structure Keyed (A : Type) where
  key : KvPath
  item : A
deriving DecidableEq

/-- The KvStore state: the entry list of a BTreeMap from Path to child
state, kept in ascending key order (src/edfsm-kv-store/src/lib.rs). -/
abbrev KvSt (V : Type) : Type := List (KvPath × V)

/-- The entry list is sorted strictly ascending, the BTreeMap invariant. -/
def kvSorted (st : KvSt V) : Prop := st.Chain' (fun a b => KvPath.cmp a.1 b.1 = .lt)

/-- Embedding of BTreeMap::get: the value at the given key, if any. -/
def kvLookup (p : KvPath) (st : KvSt V) : Option V :=
  (st.find? (fun kv => kv.1 = p)).map (fun kv => kv.2)

/-- Embedding of BTreeMap::insert (also entry().insert / into_mut followed
by mutation): place the value at the key, replacing an equal key and
otherwise keeping ascending key order. -/
def kvInsert (p : KvPath) (v : V) : KvSt V → KvSt V
  | [] => [(p, v)]
  | (k, w) :: t =>
    match KvPath.cmp p k with
    | .lt => (p, v) :: (k, w) :: t
    | .eq => (p, v) :: t
    | .gt => (k, w) :: kvInsert p v t

/-- Embedding of BTreeMap entry removal: drop the entry with the key. -/
def kvRemove (p : KvPath) : KvSt V → KvSt V
  | [] => []
  | (k, w) :: t => if k = p then t else (k, w) :: kvRemove p t

/-- Embedding of KvStore::on_event (src/edfsm-kv-store/src/lib.rs lines 137
to 154). The child machine is given by its on_event function, its default
state and the terminating flag of its events. A non-terminating event is
delegated to the child at the key, default-constructing it first when
absent; a terminating event removes an occupied entry and reports
Transitioned, and does nothing for a vacant one. -/
def kvOnEvent (child : V → E → V × Option Change) (dflt : V) (term : E → Bool)
    (st : KvSt V) (e : Keyed E) : KvSt V × Option Change :=
  match kvLookup e.key st, term e.item with
  | some s, false =>
    let r := child s e.item
    (kvInsert e.key r.1 st, r.2)
  | none, false =>
    let r := child dflt e.item
    (kvInsert e.key r.1 st, r.2)
  | some _, true => (kvRemove e.key st, some .Transitioned)
  | none, true => (st, none)

/-- Embedding of the iterator passed to the respond callback by the GetTree
arm of KvStore::for_command (src/edfsm-kv-store/src/lib.rs lines 109 to
117): a range from the queried path upward, taken while the key is longer
than the path or equal to it. -/
def getTreeEntries (path : KvPath) (st : KvSt V) : List (KvPath × V) :=
  (st.dropWhile (fun kv => KvPath.cmp kv.1 path == Ordering.lt)).takeWhile
    (fun kv => decide (List.length path < List.length kv.1) || decide (kv.1 = path))

/-- The set GetTree is documented to present: the queried path itself and
its strict descendants (spec section 8 and the Query::GetTree doc comment). -/
def underTree (p q : KvPath) : Prop :=
  q = p ∨ (List.length p < List.length q ∧ List.take (List.length p) q = p)

instance (p q : KvPath) : Decidable (underTree p q) := by
  unfold underTree
  infer_instance

/-- Extant reports whether Upsert found a pre-existing value
(src/edfsm-kv-store/src/async_query.rs). -/
inductive Extant where
  | Found
  | NotFound
deriving DecidableEq

/-- Embedding of the Extant reply computed inside Requester::upsert
(src/edfsm-kv-store/src/async_query.rs lines 73 to 82): Found exactly when
a value is present at the path. -/
def upsertExtant (p : KvPath) (st : KvSt V) : Extant :=
  if (kvLookup p st).isSome then .Found else .NotFound

/-- Embedding of the Upsert arm of KvStore::for_command
(src/edfsm-kv-store/src/lib.rs lines 126 to 129): the respond function is
applied to the current value at the path and the resulting event is keyed
with that path. -/
def kvUpsertEvent (f : Option V → E) (p : KvPath) (st : KvSt V) : Keyed E :=
  { key := p, item := f (kvLookup p st) }

/-- A byte is an ASCII decimal digit (char::is_ascii_digit at byte level). -/
def isDigitByte (b : Nat) : Bool := 48 ≤ b && b ≤ 57

/-- A byte the url_escape component encoder leaves unescaped: ASCII
alphanumerics and the characters of the set bang quote parens star minus
dot underscore tilde, as in encodeURIComponent. -/
def isUnreservedByte (b : Nat) : Bool :=
  (65 ≤ b && b ≤ 90) || (97 ≤ b && b ≤ 122) || (48 ≤ b && b ≤ 57) ||
  b == 33 || b == 39 || b == 40 || b == 41 || b == 42 ||
  b == 45 || b == 46 || b == 95 || b == 126

/-- Upper-case hexadecimal digit byte for a value below 16. -/
def toHexDigit (x : Nat) : Nat := if x < 10 then 48 + x else 55 + x

/-- Value of a hexadecimal digit byte, either case, if it is one. -/
def fromHexDigit (b : Nat) : Option Nat :=
  if 48 ≤ b && b ≤ 57 then some (b - 48)
  else if 65 ≤ b && b ≤ 70 then some (b - 55)
  else if 97 ≤ b && b ≤ 102 then some (b - 87)
  else none

/-- Embedding of url_escape::encode_component over the bytes of a string:
unreserved bytes pass through, every other byte becomes a percent sign and
two hexadecimal digits. -/
def escapeBytes : List Nat → List Nat
  | [] => []
  | b :: rest =>
    (if isUnreservedByte b then [b]
     else [37, toHexDigit (b / 16), toHexDigit (b % 16)]) ++ escapeBytes rest

/-- Embedding of url_escape::decode over bytes: a percent sign followed by
two hexadecimal digits yields that byte, otherwise bytes pass through. -/
def decodeBytes : List Nat → List Nat
  | [] => []
  | 37 :: h :: l :: rest =>
    match fromHexDigit h, fromHexDigit l with
    | some x, some y => (16 * x + y) :: decodeBytes rest
    | _, _ => 37 :: decodeBytes (h :: l :: rest)
  | b :: rest => b :: decodeBytes rest

/-- Decimal digit bytes of a natural number, most significant first,
modelling u64::to_string. -/
def decimalBytes (n : Nat) : List Nat :=
  if h : n < 10 then [48 + n]
  else decimalBytes (n / 10) ++ [48 + n % 10]
decreasing_by exact Nat.div_lt_self (by omega) (by omega)

/-- Embedding of u64 parsing from a rendered segment: the whole segment
must be decimal digits and the value must fit in 64 bits. -/
def parseU64 (seg : List Nat) : Option Nat :=
  if seg.isEmpty then none
  else if seg.all isDigitByte then
    let v := seg.foldl (fun acc b => acc * 10 + (b - 48)) 0
    if v < 2 ^ 64 then some v else none
  else none

/-- Errors of Path parsing (src/edfsm-kv-store/src/path.rs): the string
lacks a leading separator, or a numeric segment fails to parse as u64. -/
inductive ParseError where
  | NoRoot
  | BadInt
deriving DecidableEq

/-- Embedding of the Display instance for Path applied to one item
(src/edfsm-kv-store/src/path.rs lines 81 to 102): a number renders as its
component-escaped decimal text; a name is quote-prefixed when its first
character is an ASCII digit or a quote, then component-escaped. -/
def renderItem : PathItem → List Nat
  | .Number n => escapeBytes (decimalBytes n)
  | .Name bs =>
    match bs with
    | b :: _ =>
      if isDigitByte b || b == 39 then 39 :: escapeBytes bs else escapeBytes bs
    | [] => escapeBytes bs

/-- Embedding of the Display instance for Path: each item is rendered after
a slash; the root path therefore renders as the empty string. -/
def renderPath (p : KvPath) : List Nat :=
  (p.map (fun it => 47 :: renderItem it)).flatten

/-- Split a byte list on a separator byte, as str::split does: the result
always has one more segment than there are separators. -/
def splitBytes (c : Nat) : List Nat → List (List Nat)
  | [] => [[]]
  | b :: rest =>
    if b == c then [] :: splitBytes c rest
    else
      match splitBytes c rest with
      | s :: ss => (b :: s) :: ss
      | [] => [[b]]

/-- Embedding of one segment of FromStr for Path
(src/edfsm-kv-store/src/path.rs lines 110 to 148): a segment whose first
character is an ASCII digit parses as a u64 number (BadInt on failure); a
leading quote is stripped and the rest decoded as a name; anything else
decodes as a name. -/
def parseSegment (seg : List Nat) : Except ParseError PathItem :=
  match seg with
  | [] => .ok (.Name (decodeBytes []))
  | b :: rest =>
    if isDigitByte b then
      match parseU64 seg with
      | some n => .ok (.Number n)
      | none => .error .BadInt
    else if b == 39 then .ok (.Name (decodeBytes rest))
    else .ok (.Name (decodeBytes seg))

/-- Parse every segment in order, stopping at the first error, as the
for-loop with the question-mark operator does. -/
def parseSegs : List (List Nat) → Except ParseError (List PathItem)
  | [] => .ok []
  | seg :: rest =>
    match parseSegment seg, parseSegs rest with
    | .ok it, .ok its => .ok (it :: its)
    | .error e, _ => .error e
    | .ok _, .error e => .error e

/-- Embedding of FromStr for Path: the string must start with a slash; the
remainder is split on slashes and each segment parsed, the segment before
the first slash (always empty) being skipped. -/
def parsePath (s : List Nat) : Except ParseError KvPath :=
  match s with
  | b :: rest => if b == 47 then parseSegs (splitBytes 47 rest) else .error .NoRoot
  | [] => .error .NoRoot

/-- Wellformedness of an item as produced by the Rust types: numbers are
u64 values and name bytes are bytes. -/
def PathItem.wf : PathItem → Prop
  | .Number n => n < 2 ^ 64
  | .Name bs => ∀ b ∈ bs, b < 256

/-- Wellformedness of a path: every item is wellformed. -/
def KvPath.wf (p : KvPath) : Prop := ∀ it ∈ p, PathItem.wf it

/-- Effect handler operations the runtime needs, embedding the Drain and
Init traits: drain_all extracts and clears pending outputs, init primes the
handler from the hydrated state. -/
structure EffectsM (S SE Out : Type) where
  drain_all : SE → List Out × SE
  init : SE → S → SE

/-- Observable actions of one run of the edfsm-machine task, in order:
an event fed during hydration, the init call, an output flushed to the
output adapter, an input received from the queue, an event appended to the
event log, an event forwarded to the merged event adapters. -/
inductive Act (C E Out : Type) where
  | hydrated (e : E)
  | initialised
  | flushed (o : Out)
  | consumed (i : Input C E)
  | logged (e : E)
  | emitted (e : E)
deriving DecidableEq

/-- Whether an action is a hydration application. -/
def Act.isHydrated : Act C E Out → Bool
  | .hydrated _ => true
  | _ => false

/-- Whether an action consumes a queued input. -/
def Act.isConsumed : Act C E Out → Bool
  | .consumed _ => true
  | _ => false

/-- The event an action appends to the event log, if any. -/
def Act.loggedEvent : Act C E Out → Option E
  | .logged e => some e
  | _ => none

/-- The output an action flushes, if any. -/
def Act.flushedOut : Act C E Out → Option Out
  | .flushed o => some o
  | _ => none

/-- Result of a task run: final state, effect handler, the three adapter
states and the ordered action trace. -/
structure TaskResult (S SE L P O C E Out : Type) where
  state : S
  eff : SE
  log : L
  evs : P
  out : O
  trace : List (Act C E Out)

/-- Embedding of the main loop of edfsm-machine Template::task
(src/edfsm-machine/src/lib.rs lines 226 to 245): for each input run step;
if an event results append it to the event log, forward it to the event
adapters and note whether it terminates; flush the outputs drained from
the effect handler; stop after a terminating event. The log, event and
output adapters are modelled as state transformers, their notify being
infallible as in the edfsm-machine Adapter trait. -/
def taskLoop (m : FsmM S C E SE) (eff : EffectsM S SE Out) (term : E → Bool)
    (nL : L → E → L) (nP : P → E → P) (nO : O → Out → O) :
    S → SE → L → P → O → List (Input C E) → TaskResult S SE L P O C E Out
  | s, se, l, p, o, [] =>
    { state := s, eff := se, log := l, evs := p, out := o, trace := [] }
  | s, se, l, p, o, i :: rest =>
    let t := m.step s i se
    let d := eff.drain_all t.2.1
    let o1 := d.1.foldl nO o
    match t.2.2 with
    | some e =>
      let seg : List (Act C E Out) :=
        .consumed i :: .logged e :: .emitted e :: d.1.map .flushed
      if term e then
        { state := t.1, eff := d.2, log := nL l e, evs := nP p e, out := o1,
          trace := seg }
      else
        let r := taskLoop m eff term nL nP nO t.1 d.2 (nL l e) (nP p e) o1 rest
        { r with trace := seg ++ r.trace }
    | none =>
      let seg : List (Act C E Out) := .consumed i :: d.1.map .flushed
      let r := taskLoop m eff term nL nP nO t.1 d.2 l p o1 rest
      { r with trace := seg ++ r.trace }

/-- Embedding of edfsm-machine Template::task (src/edfsm-machine/src/lib.rs
lines 201 to 247): construct the default state, hydrate it from the event
log feed (modelled as the list of stored events, fed in order), initialise
the effect handler, flush the outputs of initialisation, then run the main
loop. -/
def task (m : FsmM S C E SE) (eff : EffectsM S SE Out) (term : E → Bool)
    (nL : L → E → L) (nP : P → E → P) (nO : O → Out → O)
    (hist : List E) (ins : List (Input C E))
    (s0 : S) (se0 : SE) (l0 : L) (p0 : P) (o0 : O) :
    TaskResult S SE L P O C E Out :=
  let s1 := hydrate m hist s0
  let se1 := eff.init se0 s1
  let d0 := eff.drain_all se1
  let o1 := d0.1.foldl nO o0
  let r := taskLoop m eff term nL nP nO s1 d0.2 l0 p0 o1 ins
  { r with
    trace := hist.map .hydrated ++ .initialised :: d0.1.map .flushed ++ r.trace }

/-- Per-input records of the main loop: the input, the event step produced
(if any) and the outputs drained afterwards, stopping after a terminating
event. This mirrors the loop but keeps no adapter state. -/
def stepsRecs (m : FsmM S C E SE) (eff : EffectsM S SE Out) (term : E → Bool) :
    S → SE → List (Input C E) → List (Input C E × Option E × List Out)
  | _, _, [] => []
  | s, se, i :: rest =>
    let t := m.step s i se
    let d := eff.drain_all t.2.1
    let stop := match t.2.2 with
      | some e => term e
      | none => false
    (i, t.2.2, d.1) ::
      (if stop then [] else stepsRecs m eff term t.1 d.2 rest)

/-- The trace segment of one per-input record: the consumed input, then the
logged and forwarded event if one was produced, then the flushed outputs. -/
def segOf (r : Input C E × Option E × List Out) : List (Act C E Out) :=
  .consumed r.1 ::
    (match r.2.1 with
     | some e => [Act.logged e, Act.emitted e]
     | none => []) ++ r.2.2.map .flushed

/-- The runtime error of both machine crates: the destination channel of an
adapter or reply is closed (src/machine/src/error.rs,
src/edfsm-machine/src/error.rs). -/
inductive MErr where
  | ChannelClosed
deriving DecidableEq

/-- Record of one notify attempt made by the machine crate task: the item
kind, and the error if the attempt failed. -/
inductive MCall (E Out : Type) where
  | logCall (e : E) (fail : Option MErr)
  | outCall (o : Out) (fail : Option MErr)
deriving DecidableEq

/-- The failure of a notify attempt, if any. -/
def MCall.failure : MCall E Out → Option MErr
  | .logCall _ f => f
  | .outCall _ f => f

/-- Flush a list of outputs through a fallible output adapter, recording
each attempt and stopping at the first error, as the for-loop with the
question-mark operator does in the machine crate task. -/
def flushAll (nO : O → Out → Except MErr O) (o : O) :
    List Out → (Except MErr O × List (MCall E Out))
  | [] => (.ok o, [])
  | x :: xs =>
    match nO o x with
    | .error err => (.error err, [.outCall x (some err)])
    | .ok o1 =>
      let r := flushAll nO o1 xs
      (r.1, .outCall x none :: r.2)

/-- Embedding of the main loop of the machine crate Template::task
(src/machine/src/lib.rs lines 177 to 188): run step for each input; if an
event results notify the event log, propagating an error immediately; then
flush drained outputs, propagating an error immediately; otherwise
continue. Returns the task result and the ordered list of notify attempts. -/
def mTaskLoop (m : FsmM S C E SE) (eff : EffectsM S SE Out)
    (nL : L → E → Except MErr L) (nO : O → Out → Except MErr O) :
    S → SE → L → O → List (Input C E) → Except MErr Unit × List (MCall E Out)
  | _, _, _, _, [] => (.ok (), [])
  | s, se, l, o, i :: rest =>
    let t := m.step s i se
    match t.2.2 with
    | some e =>
      match nL l e with
      | .error err => (.error err, [.logCall e (some err)])
      | .ok l1 =>
        let d := eff.drain_all t.2.1
        match flushAll nO o d.1 with
        | (.error err, tr) => (.error err, .logCall e none :: tr)
        | (.ok o1, tr) =>
          let r := mTaskLoop m eff nL nO t.1 d.2 l1 o1 rest
          (r.1, .logCall e none :: (tr ++ r.2))
    | none =>
      let d := eff.drain_all t.2.1
      match flushAll nO o d.1 with
      | (.error err, tr) => (.error err, tr)
      | (.ok o1, tr) =>
        let r := mTaskLoop m eff nL nO t.1 d.2 l o1 rest
        (r.1, tr ++ r.2)

/-- Embedding of the machine crate Template::task (src/machine/src/lib.rs
lines 151 to 190): construct the default state, hydrate it from the feed,
initialise the effect handler, flush initialisation outputs propagating any
error, then run the main loop. Adapters are fallible, as the machine crate
Adapter::notify returns a Result. -/
def mTask (m : FsmM S C E SE) (eff : EffectsM S SE Out)
    (nL : L → E → Except MErr L) (nO : O → Out → Except MErr O)
    (hist : List E) (ins : List (Input C E))
    (s0 : S) (se0 : SE) (l0 : L) (o0 : O) :
    Except MErr Unit × List (MCall E Out) :=
  let s1 := hydrate m hist s0
  let se1 := eff.init se0 s1
  let d0 := eff.drain_all se1
  match flushAll nO o0 d0.1 with
  | (.error err, tr) => (.error err, tr)
  | (.ok o1, tr) =>
    let r := mTaskLoop m eff nL nO s1 d0.2 l0 o1 ins
    (r.1, tr ++ r.2)

/-- The OutputBuffer of edfsm-machine wraps a vector of pending outputs
(src/edfsm-machine/src/output.rs). -/
abbrev OutputBuffer (A : Type) : Type := List A

/-- Embedding of OutputBuffer::push. -/
def obPush (b : OutputBuffer A) (item : A) : OutputBuffer A := b ++ [item]

/-- Embedding of the Drain impl for OutputBuffer
(src/edfsm-machine/src/output.rs lines 19 to 28): Vec::drain over the full
range yields every buffered item in order and leaves the buffer empty. -/
def obDrainAll (b : OutputBuffer A) : List A × OutputBuffer A := (b, [])

/-- The effect handler operations of an OutputBuffer: drain_all as above
and the Init impl that does nothing. -/
def obEffects (S A : Type) : EffectsM S (OutputBuffer A) A where
  drain_all := obDrainAll
  init := fun se _ => se

/-- Per-input records computed with a buffer that is empty at the start of
every step: each record flushes exactly the outputs its own step produced. -/
def freshRecs (m : FsmM S C E (OutputBuffer Out)) (term : E → Bool) :
    S → List (Input C E) → List (Input C E × Option E × List Out)
  | _, [] => []
  | s, i :: rest =>
    let t := m.step s i ([] : OutputBuffer Out)
    let stop := match t.2.2 with
      | some e => term e
      | none => false
    (i, t.2.2, t.2.1) ::
      (if stop then [] else freshRecs m term t.1 rest)

/-- A tokio mpsc channel modelled by its queued items and whether the
receiver side is closed. -/
structure Chan (A : Type) where
  queue : List A
  closed : Bool
deriving DecidableEq

/-- Sending on a tokio mpsc channel: an error when the channel is closed,
otherwise the item is enqueued. -/
def chanSend (ch : Chan A) (a : A) : Except MErr (Chan A) :=
  if ch.closed then .error .ChannelClosed
  else .ok { ch with queue := ch.queue ++ [a] }

/-- Embedding of the edfsm-machine Adapter impl for tokio mpsc Sender
(src/edfsm-machine/src/adapter.rs lines 217 to 226): the send result is
discarded, so a failed send leaves the channel unchanged and reports
nothing. -/
def mpscNotify (ch : Chan A) (a : A) : Chan A :=
  match chanSend ch a with
  | .ok ch1 => ch1
  | .error _ => ch

/-- Embedding of the machine crate Adapter impl for tokio mpsc Sender
(src/machine/src/adapter.rs lines 204 to 214): the send error propagates. -/
def mpscNotifyR (ch : Chan A) (a : A) : Except MErr (Chan A) := chanSend ch a

/-- Result of the edfsm-machine task as the Rust signature reports it: the
only fallible operation in the task body is the event log feed, and the
feed of a stored event list never fails, so the run always returns Ok. -/
def taskR (m : FsmM S C E SE) (eff : EffectsM S SE Out) (term : E → Bool)
    (nL : L → E → L) (nP : P → E → P) (nO : O → Out → O)
    (hist : List E) (ins : List (Input C E))
    (s0 : S) (se0 : SE) (l0 : L) (p0 : P) (o0 : O) :
    Except MErr (TaskResult S SE L P O C E Out) :=
  .ok (task m eff term nL nP nO hist ins s0 se0 l0 p0 o0)

/-- A small concrete event-driven machine used to instantiate theorems:
numbers as state, commands and events, a list of visited states as effect
handler. -/
def toyED : FsmED Nat Nat Nat (List Nat) where
  for_command := fun _ c se => (if 0 < c then some c else none, se)
  on_event := fun s e => (s + e, if e == 0 then .UnchangedState else .UpdatedState)
  on_change := fun s _ se => s :: se
  on_entry := fun _ se => se

/-- Commands of the counter fixture (src/edfsm-fixtures/src/counter.rs). -/
inductive CCommand where
  | Print
  | Assert (n : Int)
deriving DecidableEq

/-- Events of the counter fixture. -/
inductive CEvent where
  | Tick
  | Reset
deriving DecidableEq

/-- Outputs of the counter fixture. -/
inductive COut where
  | Tock
deriving DecidableEq

/-- Embedding of the counter fixture (src/edfsm-fixtures/src/counter.rs):
Tick increments the count, Reset zeroes a non-zero count and is a no-op at
zero; commands produce no event; on_change emits Tock whenever the new
count is a multiple of ten. The i32 count is modelled as Int. -/
def counterFsm : FsmM Int CCommand CEvent (OutputBuffer COut) where
  for_command := fun _ _ se => (none, se)
  on_event := fun s e =>
    match e with
    | .Tick => (s + 1, some .Updated)
    | .Reset => if s = 0 then (s, none) else (0, some .Updated)
  on_change := fun s _ se _ => if s % 10 = 0 then obPush se .Tock else se

/-- No counter event is terminating. -/
def counterTerm : CEvent → Bool := fun _ => false

/-- A closed mpsc channel for counter events. -/
def chanClosedE : Chan CEvent := { queue := [], closed := true }

/-- An open mpsc channel for counter events. -/
def chanOpenE : Chan CEvent := { queue := [], closed := false }

/-- An open mpsc channel for counter outputs. -/
def chanOpenO : Chan COut := { queue := [], closed := false }

/-- The run of the edfsm-machine task for the counter with a closed event
log channel, fed one Tick event. -/
def c5run : Except MErr (TaskResult Int (OutputBuffer COut) (Chan CEvent) (Chan CEvent) (Chan COut) CCommand CEvent COut) :=
  taskR counterFsm (obEffects Int COut) counterTerm mpscNotify mpscNotify mpscNotify
    [] [Input.Event CEvent.Tick] 0 [] chanClosedE chanOpenE chanOpenO

/-- Path with the single name segment of the byte b. -/
def pB : KvPath := [PathItem.Name [98]]

/-- Path with two name segments, the bytes c and y. -/
def pCY : KvPath := [PathItem.Name [99], PathItem.Name [121]]

/-- A concrete sorted store holding values at pB and pCY. -/
def demoStore : KvSt Nat := [(pB, 1), (pCY, 2)]

/-- A concrete path used in upsert examples. -/
def pOne : KvPath := [PathItem.Number 1]

/-- A child machine whose events are all terminating and whose on_event
never reports a change, used to exhibit upsert with a terminating event. -/
def childKeep : Nat → Unit → Nat × Option Change := fun v _ => (v, none)

/-- A concrete wellformed non-root path exercising every render case: a
number, a digit-leading name and a name needing percent escapes. -/
def pDemo : KvPath :=
  [PathItem.Number 7, PathItem.Name [50, 97], PathItem.Name [63, 47]]

/-- Run the step of the instrumented machine with an empty call trace. -/
def istep (m : FsmED S C E SE) (s : S) (st : Step C E) (se : SE) :
    S × (SE × List (EDCall S E)) × Option E :=
  FsmED.step (FsmED.instrument m) s st (se, [])

/-- A child on_event that adds the numeric event to the value and reports
an update, used to instantiate store theorems. -/
def childAdd : Nat → Nat → Nat × Option Change := fun v e => (v + e, some .Updated)

/-- A child on_event that never changes anything. -/
def childNone : Nat → Nat → Nat × Option Change := fun v _ => (v, none)

/-- Numeric child events equal to 99 are terminating. -/
def termIs99 : Nat → Bool := fun e => e == 99

/-- The run of the machine crate task for the counter with an event log
adapter whose channel is closed, fed one Tick event. -/
def c5mrun : Except MErr Unit × List (MCall CEvent COut) :=
  mTask counterFsm (obEffects Int COut)
    (fun (_ : Unit) _ => Except.error MErr.ChannelClosed)
    (fun (o : Unit) _ => Except.ok o)
    [] [Input.Event CEvent.Tick] 0 [] () ()

/-- C1: step(state, Input::Command(c), effect) first invokes for_command to
decide an event, while step(state, Input::Event(e), effect) treats e as
already decided; in either case, if an event results, on_event is applied
to the state, and step returns Some(event) exactly when on_event reports a
change, invoking on_change on the post-mutation state; in every other case
step returns None and on_change is never invoked. -/
theorem c1_step_contract (m : FsmED S C E SE) (s : S) (st : Step C E) (se : SE) :
    (∀ c, st = Step.Command c → FsmED.decideInput m s st se = m.for_command s c se)
    ∧ (∀ e, st = Step.Event e → FsmED.decideInput m s st se = (some e, se))
    ∧ ((FsmED.decideInput m s st se).1 = none →
        istep m s st se = (s, ((FsmED.decideInput m s st se).2, []), none))
    ∧ (∀ e, (FsmED.decideInput m s st se).1 = some e →
        (istep m s st se).1 = (m.on_event s e).1)
    ∧ (∀ e, (FsmED.decideInput m s st se).1 = some e →
        ((istep m s st se).2.2 = some e ↔
          (m.on_event s e).2 ≠ OnEvent.UnchangedState))
    ∧ (∀ e, (FsmED.decideInput m s st se).1 = some e →
        (m.on_event s e).2 ≠ OnEvent.UnchangedState →
        changeCalls (istep m s st se).2.1.2 = [((m.on_event s e).1, e)])
    ∧ ((istep m s st se).2.2 = none → changeCalls (istep m s st se).2.1.2 = []) := by
  cases st with
  | Command c =>
    rcases hfc : m.for_command s c se with ⟨oe, se1⟩
    cases oe with
    | none =>
      simp [FsmED.decideInput, istep, FsmED.step, FsmED.instrument, hfc, changeCalls]
    | some e =>
      rcases hoe : m.on_event s e with ⟨s1, r⟩
      cases r <;>
        simp [FsmED.decideInput, istep, FsmED.step, FsmED.instrument, hfc, hoe,
          changeCalls, List.filterMap]
  | Event e =>
    rcases hoe : m.on_event s e with ⟨s1, r⟩
    cases r <;>
      simp [FsmED.decideInput, istep, FsmED.step, FsmED.instrument, hoe,
        changeCalls, List.filterMap]

/-- Witness for C1 at a concrete machine and input: the command decides
event 3, the state moves to 8, and on_change is invoked once with the
post-mutation state. -/
theorem c1_step_contract_witness :
    (istep toyED 5 (Step.Command 3) []).2.2 = some 3
    ∧ changeCalls (istep toyED 5 (Step.Command 3) []).2.1.2 = [(8, 3)] := by
  have h := c1_step_contract toyED 5 (Step.Command 3) []
  refine ⟨(h.2.2.2.2.1 3 (by decide)).mpr (by decide), ?_⟩
  have h6 := h.2.2.2.2.2.1 3 (by decide) (by decide)
  simpa using h6

/-- Lexicographic list comparison reports eq exactly on equal lists, when
the element comparison does. -/
theorem listCmp_eq_iff (cmp : A → A → Ordering)
    (h : ∀ a b, cmp a b = .eq ↔ a = b) :
    ∀ l1 l2 : List A, listCmp cmp l1 l2 = .eq ↔ l1 = l2 := by
  intro l1
  induction l1 with
  | nil =>
    intro l2
    cases l2 <;> simp [listCmp]
  | cons a as ih =>
    intro l2
    cases l2 with
    | nil => simp [listCmp]
    | cons b bs =>
      rcases hab : cmp a b with hlt | heq | hgt <;>
        simp [listCmp, hab]
      · intro hEq
        exact absurd ((h a b).mpr hEq) (by simp [hab])
      · constructor
        · intro hbs
          exact ⟨(h a b).mp hab, (ih bs).mp hbs⟩
        · intro hc
          exact (ih bs).mpr hc.2
      · intro hEq
        exact absurd ((h a b).mpr hEq) (by simp [hab])

/-- Nat comparison reports eq exactly on equal numbers. -/
theorem natCompare_eq_iff (a b : Nat) : compare a b = .eq ↔ a = b := by
  rcases Nat.lt_trichotomy a b with h | h | h
  · simp [Nat.compare_eq_lt.mpr h]
    omega
  · simp [h, Nat.compare_eq_eq.mpr rfl]
  · simp [Nat.compare_eq_gt.mpr h]
    omega

/-- Path item comparison reports eq exactly on equal items. -/
theorem pathItemCmp_eq_iff (a b : PathItem) : PathItem.cmp a b = .eq ↔ a = b := by
  cases a <;> cases b <;> simp [PathItem.cmp]
  · exact natCompare_eq_iff _ _
  · exact listCmp_eq_iff compare natCompare_eq_iff _ _

/-- Path comparison reports eq exactly on equal paths. -/
theorem pathCmp_eq_iff (p q : KvPath) : KvPath.cmp p q = .eq ↔ p = q :=
  listCmp_eq_iff PathItem.cmp pathItemCmp_eq_iff p q

/-- Looking up a key just inserted yields the inserted value. -/
theorem kvLookup_insert_self (p : KvPath) (v : V) (st : KvSt V) :
    kvLookup p (kvInsert p v st) = some v := by
  induction st with
  | nil => simp [kvInsert, kvLookup, List.find?]
  | cons kv t ih =>
    rcases kv with ⟨k, w⟩
    rcases hc : KvPath.cmp p k with hlt | heq | hgt
    · simp [kvInsert, hc, kvLookup, List.find?]
    · simp [kvInsert, hc, kvLookup, List.find?]
    · have hne : k ≠ p := by
        intro hEq
        rw [hEq] at hc
        simp [(pathCmp_eq_iff p p).mpr rfl] at hc
      simpa [kvInsert, hc, kvLookup, List.find?, hne] using ih

/-- The lookup misses exactly when no entry has the key. -/
theorem kvLookup_none_iff (p : KvPath) (st : KvSt V) :
    kvLookup p st = none ↔ ∀ kv ∈ st, kv.1 ≠ p := by
  simp [kvLookup, List.find?_eq_none]

/-- Inserting an absent key grows the entry list by one. -/
theorem kvInsert_length_absent (p : KvPath) (v : V) (st : KvSt V)
    (h : kvLookup p st = none) : (kvInsert p v st).length = st.length + 1 := by
  induction st with
  | nil => simp [kvInsert]
  | cons kv t ih =>
    rcases kv with ⟨k, w⟩
    have hmem := (kvLookup_none_iff p ((k, w) :: t)).mp h
    have ht : kvLookup p t = none := by
      rw [kvLookup_none_iff]
      intro kv hkv
      exact hmem kv (List.mem_cons_of_mem _ hkv)
    rcases hc : KvPath.cmp p k with hlt | heq | hgt
    · simp [kvInsert, hc]
    · exact absurd ((pathCmp_eq_iff p k).mp hc).symm (hmem (k, w) (List.mem_cons_self _ _))
    · simp [kvInsert, hc, ih ht]

/-- Removing a key from a store with distinct keys makes its lookup miss. -/
theorem kvLookup_remove_self (p : KvPath) (st : KvSt V)
    (h : (st.map Prod.fst).Nodup) : kvLookup p (kvRemove p st) = none := by
  induction st with
  | nil => simp [kvRemove, kvLookup, List.find?]
  | cons kv t ih =>
    rcases kv with ⟨k, w⟩
    simp only [List.map_cons, List.nodup_cons] at h
    by_cases hk : k = p
    · subst hk
      simp only [kvRemove, if_pos rfl]
      rw [kvLookup_none_iff]
      intro kv2 hkv2 hEq
      exact h.1 (by
        rw [← hEq]
        exact List.mem_map_of_mem Prod.fst hkv2)
    · simpa [kvRemove, hk, kvLookup, List.find?] using ih h.2

/-- C3: applying a non-terminating event for a previously-unseen Path
inserts a default-constructed child state and then applies the event to it
via the child's on_event; applying a terminating event for an existing Path
removes that entry and reports Change::Transitioned without invoking the
child's on_event; applying a terminating event for an absent Path leaves
the store unchanged and returns None. -/
theorem c3_kv_lifecycle (child : V → E → V × Option Change) (dflt : V)
    (term : E → Bool) (st : KvSt V) (p : KvPath) (e : E) :
    (kvLookup p st = none → term e = false →
      kvOnEvent child dflt term st ⟨p, e⟩ =
        (kvInsert p (child dflt e).1 st, (child dflt e).2))
    ∧ ((kvLookup p st).isSome = true → term e = true →
      kvOnEvent child dflt term st ⟨p, e⟩ = (kvRemove p st, some .Transitioned)
      ∧ ∀ child2 : V → E → V × Option Change,
          kvOnEvent child2 dflt term st ⟨p, e⟩ = kvOnEvent child dflt term st ⟨p, e⟩)
    ∧ ((st.map Prod.fst).Nodup → (kvLookup p st).isSome = true → term e = true →
      kvLookup p (kvOnEvent child dflt term st ⟨p, e⟩).1 = none)
    ∧ (kvLookup p st = none → term e = true →
      kvOnEvent child dflt term st ⟨p, e⟩ = (st, none)) := by
  refine ⟨?_, ?_, ?_, ?_⟩
  · intro hl ht
    simp [kvOnEvent, hl, ht]
  · intro hl ht
    rcases hs : kvLookup p st with _ | v
    · rw [hs] at hl
      simp at hl
    · exact ⟨by simp [kvOnEvent, hs, ht], fun child2 => by simp [kvOnEvent, hs, ht]⟩
  · intro hnd hl ht
    rcases hs : kvLookup p st with _ | v
    · rw [hs] at hl
      simp at hl
    · simp only [kvOnEvent, hs, ht]
      exact kvLookup_remove_self p st hnd
  · intro hl ht
    simp [kvOnEvent, hl, ht]

/-- Witness for C3 at concrete stores: a non-terminating event for the
absent key pOne default-constructs and applies the child machine, a
terminating event for the present key pB removes it, and a terminating
event for the absent pOne does nothing. -/
theorem c3_kv_lifecycle_witness :
    kvOnEvent childAdd 0 termIs99 demoStore ⟨pOne, 5⟩ =
      (kvInsert pOne 5 demoStore, some .Updated)
    ∧ kvOnEvent childAdd 0 termIs99 demoStore ⟨pB, 99⟩ =
      (kvRemove pB demoStore, some .Transitioned)
    ∧ kvOnEvent childAdd 0 termIs99 demoStore ⟨pOne, 99⟩ = (demoStore, none) := by
  have h1 := c3_kv_lifecycle childAdd 0 termIs99 demoStore pOne (5 : Nat)
  have h2 := c3_kv_lifecycle childAdd 0 termIs99 demoStore pB (99 : Nat)
  have h3 := c3_kv_lifecycle childAdd 0 termIs99 demoStore pOne (99 : Nat)
  refine ⟨?_, ?_, ?_⟩
  · simpa [childAdd] using h1.1 (by decide) (by decide)
  · exact (h2.2.1 (by decide) (by decide)).1
  · exact h3.2.2.2 (by decide) (by decide)

/-- C9: if a non-terminating event is keyed to an absent Path and the
child machine's on_event returns None for the default state, KvStore
on_event nevertheless inserts a default-derived child entry at that Path
while itself returning None, so the key set grows although the event is
classified as having changed nothing. -/
theorem c9_silent_insert (child : V → E → V × Option Change) (dflt : V)
    (term : E → Bool) (st : KvSt V) (p : KvPath) (e : E) (v : V)
    (hl : kvLookup p st = none) (ht : term e = false)
    (hchild : child dflt e = (v, none)) :
    kvOnEvent child dflt term st ⟨p, e⟩ = (kvInsert p v st, none)
    ∧ kvLookup p (kvOnEvent child dflt term st ⟨p, e⟩).1 = some v
    ∧ (kvOnEvent child dflt term st ⟨p, e⟩).1.length = st.length + 1 := by
  have hmain : kvOnEvent child dflt term st ⟨p, e⟩ = (kvInsert p v st, none) := by
    simp [kvOnEvent, hl, ht, hchild]
  refine ⟨hmain, ?_, ?_⟩
  · rw [hmain]
    exact kvLookup_insert_self p v st
  · rw [hmain]
    exact kvInsert_length_absent p v st hl

/-- Witness for C9: a no-op numeric event for the absent key pOne grows the
demo store to three entries while reporting no change. -/
theorem c9_silent_insert_witness :
    kvOnEvent childNone 0 termIs99 demoStore ⟨pOne, 5⟩ =
      (kvInsert pOne 0 demoStore, none)
    ∧ kvLookup pOne (kvOnEvent childNone 0 termIs99 demoStore ⟨pOne, 5⟩).1 = some 0
    ∧ (kvOnEvent childNone 0 termIs99 demoStore ⟨pOne, 5⟩).1.length =
        demoStore.length + 1 :=
  c9_silent_insert childNone 0 termIs99 demoStore pOne 5 0
    (by decide) (by decide) (by decide)

/-- C6 counterexample: when the upsert callback produces a terminating
event for an absent Path, the produced event is Keyed as claimed, but once
applied it does not make Get return the new value: the store still has no
entry at the path, refuting the claim as universally stated. -/
theorem c6_upsert_counterexample :
    kvUpsertEvent (fun _ => ()) pOne ([] : KvSt Nat) = { key := pOne, item := () }
    ∧ upsertExtant pOne ([] : KvSt Nat) = Extant.NotFound
    ∧ kvLookup pOne
        (kvOnEvent childKeep 0 (fun _ => true) ([] : KvSt Nat)
          (kvUpsertEvent (fun _ => ()) pOne ([] : KvSt Nat))).1 = none := by
  refine ⟨rfl, rfl, rfl⟩

/-- C6 amended: for every store, Path p and callback f, the Upsert command
passes the current value at p (None when absent) to f, reports Found
through the reply side channel exactly when a value exists at p, and
produces exactly the event Keyed key p item f(current); provided the
produced event is not terminating, applying it makes a subsequent Get(p)
return the new value, so a second Upsert then reports Found. -/
theorem c6_upsert_amended (child : V → E → V × Option Change) (dflt : V)
    (term : E → Bool) (f : Option V → E) (p : KvPath) (st : KvSt V) :
    (upsertExtant p st = .Found ↔ (kvLookup p st).isSome = true)
    ∧ kvUpsertEvent f p st = { key := p, item := f (kvLookup p st) }
    ∧ (term (f (kvLookup p st)) = false →
        kvLookup p (kvOnEvent child dflt term st (kvUpsertEvent f p st)).1 =
          some (child ((kvLookup p st).getD dflt) (f (kvLookup p st))).1)
    ∧ (term (f (kvLookup p st)) = false →
        upsertExtant p (kvOnEvent child dflt term st (kvUpsertEvent f p st)).1 =
          .Found) := by
  have hlook : ∀ hterm : term (f (kvLookup p st)) = false,
      kvLookup p (kvOnEvent child dflt term st (kvUpsertEvent f p st)).1 =
        some (child ((kvLookup p st).getD dflt) (f (kvLookup p st))).1 := by
    intro hterm
    rcases hs : kvLookup p st with _ | v
    · rw [hs] at hterm
      simp only [kvOnEvent, kvUpsertEvent, hs, hterm]
      simpa [hs] using kvLookup_insert_self p (child dflt (f none)).1 st
    · rw [hs] at hterm
      simp only [kvOnEvent, kvUpsertEvent, hs, hterm]
      simpa [hs] using kvLookup_insert_self p (child v (f (some v))).1 st
  refine ⟨?_, rfl, hlook, ?_⟩
  · unfold upsertExtant
    rcases kvLookup p st with _ | v <;> simp
  · intro hterm
    unfold upsertExtant
    rw [hlook hterm]
    rfl

/-- Witness for C6 amended: upserting the absent key pOne with an adding
child makes the subsequent lookup return the new value and the second
upsert report Found. -/
theorem c6_upsert_amended_witness :
    upsertExtant pOne demoStore = Extant.NotFound
    ∧ kvUpsertEvent (fun v => v.getD 0 + 7) pOne demoStore =
        { key := pOne, item := 7 }
    ∧ kvLookup pOne
        (kvOnEvent childAdd 0 termIs99 demoStore
          (kvUpsertEvent (fun v => v.getD 0 + 7) pOne demoStore)).1 = some 7
    ∧ upsertExtant pOne
        (kvOnEvent childAdd 0 termIs99 demoStore
          (kvUpsertEvent (fun v => v.getD 0 + 7) pOne demoStore)).1 =
        Extant.Found := by
  have h := c6_upsert_amended childAdd 0 termIs99 (fun v => v.getD 0 + 7) pOne demoStore
  refine ⟨by decide, by decide, ?_, h.2.2.2 (by decide)⟩
  simpa [childAdd] using h.2.2.1 (by decide)

/-- C4 is a code bug: on the sorted demo store holding keys pB and pCY, the
GetTree(pB) range take-while also yields pCY, a key that is neither pB nor
a strict descendant of pB, because it is longer than pB; the presented set
therefore differs from the documented set of pB and its strict descendants. -/
theorem c4_gettree_failing :
    kvSorted demoStore
    ∧ getTreeEntries pB demoStore = [(pB, 1), (pCY, 2)]
    ∧ ¬ underTree pB pCY
    ∧ getTreeEntries pB demoStore ≠
        demoStore.filter (fun kv => decide (underTree pB kv.1)) := by
  refine ⟨?_, by decide, by decide, by decide⟩
  simp only [kvSorted, demoStore]
  refine List.chain'_cons.mpr ⟨by decide, ?_⟩
  exact List.chain'_singleton _

/-- Hex digits round-trip for values below 16. -/
theorem fromHex_toHex (x : Nat) (h : x < 16) :
    fromHexDigit (toHexDigit x) = some x := by
  interval_cases x <;> decide

/-- The hex digit bytes are never the slash byte. -/
theorem toHexDigit_ne_slash (x : Nat) : toHexDigit x ≠ 47 := by
  unfold toHexDigit
  split <;> omega

/-- Digit bytes are unreserved for the component encoder. -/
theorem digit_unreserved (b : Nat) (h : isDigitByte b = true) :
    isUnreservedByte b = true := by
  simp [isDigitByte] at h
  simp [isUnreservedByte]
  omega

/-- Escaped output never contains the slash byte. -/
theorem escapeBytes_no_slash (bs : List Nat) :
    ∀ b2 ∈ escapeBytes bs, b2 ≠ 47 := by
  induction bs with
  | nil => simp [escapeBytes]
  | cons b rest ih =>
    intro b2 hmem
    by_cases hu : isUnreservedByte b = true
    · simp only [escapeBytes, hu, if_pos] at hmem
      rcases List.mem_cons.mp (by simpa using hmem) with hEq | hmem2
      · subst hEq
        intro h47
        rw [h47] at hu
        exact absurd hu (by decide)
      · exact ih b2 hmem2
    · simp only [escapeBytes, hu, if_neg, Bool.not_eq_true] at hmem
      rcases (by simpa using hmem :
          b2 = 37 ∨ b2 = toHexDigit (b / 16) ∨ b2 = toHexDigit (b % 16) ∨
            b2 ∈ escapeBytes rest) with h1 | h1 | h1 | h1
      · omega
      · rw [h1]
        exact toHexDigit_ne_slash _
      · rw [h1]
        exact toHexDigit_ne_slash _
      · exact ih b2 h1

/-- Decoding a byte that is not a percent sign passes it through. -/
theorem dec_cons (b : Nat) (rest : List Nat) (hb : b ≠ 37) :
    decodeBytes (b :: rest) = b :: decodeBytes rest := by
  match rest with
  | [] => simp [decodeBytes]
  | [c] => simp [decodeBytes]
  | h :: l :: t =>
    rw [decodeBytes.eq_def]
    split
    · simp_all
    · simp_all
    · next heq =>
      injection heq with h1 h2
      subst h1
      subst h2
      rfl

/-- Decoding a percent sign followed by two valid hex digits yields the
encoded byte. -/
theorem dec_pct (h l : Nat) (rest : List Nat) (x y : Nat)
    (hh : fromHexDigit h = some x) (hl : fromHexDigit l = some y) :
    decodeBytes (37 :: h :: l :: rest) = (16 * x + y) :: decodeBytes rest := by
  rw [decodeBytes]
  simp [hh, hl]

/-- Decoding inverts component escaping on byte lists. -/
theorem decode_escape (bs : List Nat) (h256 : ∀ b ∈ bs, b < 256) :
    decodeBytes (escapeBytes bs) = bs := by
  induction bs with
  | nil => rfl
  | cons b rest ih =>
    have hb256 : b < 256 := h256 b (List.mem_cons_self _ _)
    have hrest : ∀ b2 ∈ rest, b2 < 256 := fun b2 hm => h256 b2 (List.mem_cons_of_mem _ hm)
    by_cases hu : isUnreservedByte b = true
    · have hb37 : b ≠ 37 := by
        intro hEq
        rw [hEq] at hu
        exact absurd hu (by decide)
      simp only [escapeBytes, hu, if_pos, List.singleton_append]
      rw [dec_cons b _ hb37, ih hrest]
    · simp only [escapeBytes, hu, if_neg, Bool.not_eq_true, List.cons_append,
        List.nil_append]
      rw [dec_pct _ _ _ _ _ (fromHex_toHex (b / 16) (by omega))
        (fromHex_toHex (b % 16) (by omega))]
      rw [ih hrest]
      congr 1
      omega

/-- Component escaping is the identity on all-digit byte lists. -/
theorem escape_digits (bs : List Nat) (h : ∀ b ∈ bs, isDigitByte b = true) :
    escapeBytes bs = bs := by
  induction bs with
  | nil => rfl
  | cons b rest ih =>
    have hu := digit_unreserved b (h b (List.mem_cons_self _ _))
    simp only [escapeBytes, hu, if_pos, List.singleton_append]
    rw [ih (fun b2 hm => h b2 (List.mem_cons_of_mem _ hm))]

/-- Every byte of a decimal rendering is a digit byte. -/
theorem decimalBytes_digits (n : Nat) : ∀ b ∈ decimalBytes n, isDigitByte b = true := by
  induction n using Nat.strong_induction_on with
  | _ n ih =>
    rw [decimalBytes]
    split
    · intro b hb
      simp at hb
      subst hb
      simp [isDigitByte]
      omega
    · intro b hb
      rcases List.mem_append.mp hb with h1 | h1
      · exact ih (n / 10) (Nat.div_lt_self (by omega) (by omega)) b h1
      · simp at h1
        subst h1
        simp [isDigitByte]
        omega

/-- A decimal rendering is never empty. -/
theorem decimalBytes_ne_nil (n : Nat) : decimalBytes n ≠ [] := by
  rw [decimalBytes]
  split <;> simp

/-- Folding the u64 digit accumulator over a decimal rendering recovers the
number, for any starting accumulator. -/
theorem decimal_foldl (n : Nat) : ∀ acc : Nat,
    List.foldl (fun acc b => acc * 10 + (b - 48)) acc (decimalBytes n) =
      acc * 10 ^ (decimalBytes n).length + n := by
  induction n using Nat.strong_induction_on with
  | _ n ih =>
    intro acc
    rw [decimalBytes]
    split
    · simp
    · rw [List.foldl_append, List.length_append]
      rw [ih (n / 10) (Nat.div_lt_self (by omega) (by omega)) acc]
      simp [List.foldl, pow_succ]
      ring_nf
      omega

/-- Parsing the decimal rendering of a u64 value recovers it. -/
theorem parseU64_decimal (n : Nat) (h : n < 2 ^ 64) :
    parseU64 (decimalBytes n) = some n := by
  unfold parseU64
  rw [if_neg (by simp [List.isEmpty_iff, decimalBytes_ne_nil])]
  rw [if_pos (List.all_eq_true.mpr (by
    intro b hb
    exact decimalBytes_digits n b hb))]
  have hv := decimal_foldl n 0
  simp at hv
  simp only [hv]
  rw [if_pos h]

/-- A rendered item never contains the slash byte. -/
theorem renderItem_no_slash (it : PathItem) : ∀ b ∈ renderItem it, b ≠ 47 := by
  cases it with
  | Number n => exact escapeBytes_no_slash _
  | Name bs =>
    cases bs with
    | nil => simp [renderItem, escapeBytes]
    | cons b rest =>
      intro b2 hmem
      by_cases hq : (isDigitByte b || b == 39) = true
      · simp only [renderItem, hq, if_pos] at hmem
        rcases List.mem_cons.mp hmem with hEq | hmem2
        · omega
        · exact escapeBytes_no_slash _ b2 hmem2
      · simp only [renderItem, hq, if_neg, Bool.not_eq_true] at hmem
        exact escapeBytes_no_slash _ b2 hmem

/-- Parsing a rendered wellformed item recovers the item. -/
theorem parseSegment_renderItem (it : PathItem) (hwf : PathItem.wf it) :
    parseSegment (renderItem it) = .ok it := by
  cases it with
  | Number n =>
    have hdig := decimalBytes_digits n
    have hesc : renderItem (.Number n) = decimalBytes n := escape_digits _ hdig
    rw [hesc]
    rcases hne : decimalBytes n with _ | ⟨d, ds⟩
    · exact absurd hne (decimalBytes_ne_nil n)
    · have hd : isDigitByte d = true := by
        apply hdig
        rw [hne]
        exact List.mem_cons_self _ _
      have hp : parseU64 (d :: ds) = some n := by
        rw [← hne]
        exact parseU64_decimal n hwf
      simp [parseSegment, hd, hp]
  | Name bs =>
    cases bs with
    | nil => rfl
    | cons b rest =>
      have h256 : ∀ b2 ∈ b :: rest, b2 < 256 := hwf
      by_cases hq : (isDigitByte b || b == 39) = true
      · have hr : renderItem (.Name (b :: rest)) = 39 :: escapeBytes (b :: rest) := by
          simp [renderItem, hq]
        rw [hr]
        simp [parseSegment, decode_escape _ h256, isDigitByte]
      · have hr : renderItem (.Name (b :: rest)) = escapeBytes (b :: rest) := by
          simp only [renderItem, hq, if_neg, Bool.not_eq_true]
        rw [hr]
        have hbd : isDigitByte b = false := by
          rcases Bool.or_eq_false_iff.mp (Bool.not_eq_true _ ▸ hq : _) with ⟨h1, h2⟩
          exact h1
        have hb39 : (b == 39) = false := by
          rcases Bool.or_eq_false_iff.mp (Bool.not_eq_true _ ▸ hq : _) with ⟨h1, h2⟩
          exact h2
        by_cases hu : isUnreservedByte b = true
        · have he : escapeBytes (b :: rest) = b :: escapeBytes rest := by
            simp [escapeBytes, hu]
          rw [he]
          have hdec : decodeBytes (b :: escapeBytes rest) = b :: rest := by
            rw [← he]
            exact decode_escape _ h256
          simp [parseSegment, hbd, hb39, hdec]
        · have he : escapeBytes (b :: rest) =
              37 :: toHexDigit (b / 16) :: toHexDigit (b % 16) :: escapeBytes rest := by
            simp [escapeBytes, hu]
          rw [he]
          have hdec : decodeBytes
              (37 :: toHexDigit (b / 16) :: toHexDigit (b % 16) :: escapeBytes rest) =
              b :: rest := by
            rw [← he]
            exact decode_escape _ h256
          simp [parseSegment, hdec, isDigitByte]

/-- Splitting a list free of the separator yields that single segment. -/
theorem splitBytes_no_sep (c : Nat) (l : List Nat) (h : ∀ b ∈ l, b ≠ c) :
    splitBytes c l = [l] := by
  induction l with
  | nil => rfl
  | cons b rest ih =>
    have hb : (b == c) = false := by
      simp
      exact h b (List.mem_cons_self _ _)
    have hr := ih (fun b2 hm => h b2 (List.mem_cons_of_mem _ hm))
    simp [splitBytes, hb, hr]

/-- Splitting after a separator-free block peels that block off. -/
theorem splitBytes_append (c : Nat) (a l : List Nat) (h : ∀ b ∈ a, b ≠ c) :
    splitBytes c (a ++ c :: l) = a :: splitBytes c l := by
  induction a with
  | nil => simp [splitBytes]
  | cons b rest ih =>
    have hb : (b == c) = false := by
      simp
      exact h b (List.mem_cons_self _ _)
    have hr := ih (fun b2 hm => h b2 (List.mem_cons_of_mem _ hm))
    simp [splitBytes, hb, hr]

/-- Splitting a rendering on slashes recovers the rendered segments. -/
theorem split_render (items : List PathItem) : ∀ seg : List Nat,
    (∀ b ∈ seg, b ≠ 47) →
    splitBytes 47 (seg ++ (items.map (fun it => 47 :: renderItem it)).flatten) =
      seg :: items.map renderItem := by
  induction items with
  | nil =>
    intro seg hseg
    simpa using splitBytes_no_sep 47 seg hseg
  | cons it rest ih =>
    intro seg hseg
    have : seg ++ ((it :: rest).map (fun it => 47 :: renderItem it)).flatten =
        seg ++ 47 :: (renderItem it ++ (rest.map (fun it => 47 :: renderItem it)).flatten) := by
      simp
    rw [this, splitBytes_append 47 seg _ hseg]
    rw [ih (renderItem it) (renderItem_no_slash it)]
    simp

/-- Parsing the rendered segments of wellformed items recovers the items. -/
theorem parseSegs_render (items : List PathItem) (hwf : ∀ it ∈ items, PathItem.wf it) :
    parseSegs (items.map renderItem) = .ok items := by
  induction items with
  | nil => rfl
  | cons it rest ih =>
    have h1 := parseSegment_renderItem it (hwf it (List.mem_cons_self _ _))
    have h2 := ih (fun it2 hm => hwf it2 (List.mem_cons_of_mem _ hm))
    simp [parseSegs, h1, h2]

/-- C8 counterexample: the root path renders as the empty string, and
parsing the empty string fails with NoRoot rather than returning the root
path, so the render-parse round trip fails at the root. -/
theorem c8_counterexample :
    renderPath pathRoot = []
    ∧ parsePath (renderPath pathRoot) = .error .NoRoot
    ∧ parsePath (renderPath pathRoot) ≠ .ok pathRoot := by
  refine ⟨rfl, rfl, ?_⟩
  intro h
  rw [show parsePath (renderPath pathRoot) = .error .NoRoot from rfl] at h
  exact Except.noConfusion h

/-- C8 amended: for every non-root Path whose numbers are u64 values and
whose name bytes are bytes, rendering as the slash-delimited escaped string
and parsing back yields exactly the path, numeric-looking name segments
being escape-prefixed; the root path however renders as the empty string,
which parsing rejects with NoRoot. -/
theorem c8_roundtrip_amended (p : KvPath) (hwf : KvPath.wf p) (hne : p ≠ []) :
    parsePath (renderPath p) = .ok p
    ∧ renderPath pathRoot = []
    ∧ parsePath [] = .error .NoRoot := by
  refine ⟨?_, rfl, rfl⟩
  rcases p with _ | ⟨it, rest⟩
  · exact absurd rfl hne
  · have hflat : renderPath (it :: rest) =
        47 :: (renderItem it ++ (rest.map (fun it => 47 :: renderItem it)).flatten) := by
      simp [renderPath]
    rw [hflat]
    simp only [parsePath, beq_self_eq_true, if_pos]
    rw [split_render rest (renderItem it) (renderItem_no_slash it)]
    exact parseSegs_render (it :: rest) hwf

/-- Witness for C8 amended at a concrete path with a number, a
digit-leading name and a percent-escaped name. -/
theorem c8_roundtrip_witness : parsePath (renderPath pDemo) = .ok pDemo :=
  (c8_roundtrip_amended pDemo
    (by
      intro it hm
      simp [pDemo] at hm
      rcases hm with h | h | h <;> subst h <;> simp [PathItem.wf])
    (by simp [pDemo])).1

/-- A step that returns no event leaves the state unchanged, given the
documented on_event contract that a None report means no mutation. -/
theorem fsmM_step_none (m : FsmM S C E SE) (s : S) (i : Input C E) (se : SE)
    (hnoop : ∀ s e, (m.on_event s e).2 = none → (m.on_event s e).1 = s)
    (h : (m.step s i se).2.2 = none) : (m.step s i se).1 = s := by
  cases i with
  | Command c =>
    rcases hfc : m.for_command s c se with ⟨oe, se1⟩
    cases oe with
    | none => simp [FsmM.step, hfc]
    | some e =>
      rcases hoe : m.on_event s e with ⟨s1, r⟩
      cases r with
      | none =>
        have hs := hnoop s e (by rw [hoe])
        rw [hoe] at hs
        simp [FsmM.step, hfc, hoe, hs]
      | some ch =>
        rw [FsmM.step] at h
        simp [hfc, hoe] at h
  | Event e =>
    rcases hoe : m.on_event s e with ⟨s1, r⟩
    cases r with
    | none =>
      have hs := hnoop s e (by rw [hoe])
      rw [hoe] at hs
      simp [FsmM.step, hoe, hs]
    | some ch =>
      rw [FsmM.step] at h
      simp [hoe] at h

/-- A step that returns an event has applied on_event to the state. -/
theorem fsmM_step_some (m : FsmM S C E SE) (s : S) (i : Input C E) (se : SE)
    (e : E) (h : (m.step s i se).2.2 = some e) :
    (m.step s i se).1 = (m.on_event s e).1 := by
  cases i with
  | Command c =>
    rcases hfc : m.for_command s c se with ⟨oe, se1⟩
    cases oe with
    | none =>
      rw [FsmM.step] at h
      simp [hfc] at h
    | some e0 =>
      rcases hoe : m.on_event s e0 with ⟨s1, r⟩
      cases r with
      | none =>
        rw [FsmM.step] at h
        simp [hfc, hoe] at h
      | some ch =>
        rw [FsmM.step] at h
        simp only [hfc, hoe] at h
        have he : e0 = e := by simpa using h
        subst he
        simp [FsmM.step, hfc, hoe]
  | Event e0 =>
    rcases hoe : m.on_event s e0 with ⟨s1, r⟩
    cases r with
    | none =>
      rw [FsmM.step] at h
      simp [hoe] at h
    | some ch =>
      rw [FsmM.step] at h
      simp only [hoe] at h
      have he : e0 = e := by simpa using h
      subst he
      simp [FsmM.step, hoe]

/-- Flush actions carry no logged event. -/
theorem filterMap_logged_flushed (outs : List Out) :
    ((outs.map (Act.flushed (C := C) (E := E))).filterMap Act.loggedEvent) = [] := by
  induction outs with
  | nil => rfl
  | cons o rest ih => simp [Act.loggedEvent, ih]

/-- Hydration actions carry no logged event. -/
theorem filterMap_logged_hydrated (es : List E) :
    ((es.map (@Act.hydrated C E Out)).filterMap Act.loggedEvent) = [] := by
  induction es with
  | nil => rfl
  | cons e rest ih => simp [Act.loggedEvent, ih]

/-- The flushed projection of flush actions is the flushed outputs. -/
theorem filterMap_flushed_map (outs : List Out) :
    ((outs.map (Act.flushed (C := C) (E := E))).filterMap Act.flushedOut) = outs := by
  induction outs with
  | nil => rfl
  | cons o rest ih => simp [Act.flushedOut, ih]

/-- Hydration actions flush nothing. -/
theorem filterMap_flushed_hydrated (es : List E) :
    ((es.map (@Act.hydrated C E Out)).filterMap Act.flushedOut) = [] := by
  induction es with
  | nil => rfl
  | cons e rest ih => simp [Act.flushedOut, ih]

/-- Applying one more event continues hydration from the mutated state. -/
theorem hydrate_cons (m : FsmM S C E SE) (e : E) (es : List E) (s : S) :
    hydrate m (e :: es) s = hydrate m es ((m.on_event s e).1) := rfl

/-- Hydration over an appended history is hydration in two stages. -/
theorem hydrate_append (m : FsmM S C E SE) (a b : List E) (s : S) :
    hydrate m (a ++ b) s = hydrate m b (hydrate m a s) := by
  simp [hydrate, List.foldl_append]

/-- The loop trace is the concatenation of the per-input segments. -/
theorem taskLoop_trace (m : FsmM S C E SE) (eff : EffectsM S SE Out)
    (term : E → Bool) (nL : L → E → L) (nP : P → E → P) (nO : O → Out → O) :
    ∀ (ins : List (Input C E)) (s : S) (se : SE) (l : L) (p : P) (o : O),
    (taskLoop m eff term nL nP nO s se l p o ins).trace =
      ((stepsRecs m eff term s se ins).map segOf).flatten := by
  intro ins
  induction ins with
  | nil => intro s se l p o; rfl
  | cons i rest ih =>
    intro s se l p o
    simp only [taskLoop, stepsRecs]
    rcases ht : (m.step s i se).2.2 with _ | e
    · simp [ht, segOf, ih]
    · by_cases hterm : term e = true
      · simp [ht, hterm, segOf]
      · simp only [Bool.not_eq_true] at hterm
        simp [ht, hterm, segOf, ih]

/-- Flush actions composed with the logged projection yield nothing. -/
theorem filterMap_comp_logged_flushed (outs : List Out) :
    List.filterMap ((Act.loggedEvent (C := C) (E := E)) ∘ Act.flushed) outs = [] := by
  induction outs with
  | nil => rfl
  | cons o rest ih => simp [Act.loggedEvent, Function.comp, ih]

/-- Flush actions composed with the flushed projection yield the outputs. -/
theorem filterMap_comp_flushed (outs : List Out) :
    List.filterMap ((Act.flushedOut (C := C) (E := E)) ∘ Act.flushed) outs = outs := by
  induction outs with
  | nil => rfl
  | cons o rest ih => simp [Act.flushedOut, Function.comp, ih]

/-- Hydration actions composed with the logged projection yield nothing. -/
theorem filterMap_comp_logged_hydrated (es : List E) :
    List.filterMap ((@Act.loggedEvent C E Out) ∘ Act.hydrated) es = [] := by
  induction es with
  | nil => rfl
  | cons e rest ih => simp [Act.loggedEvent, Function.comp, ih]

/-- Hydration actions composed with the flushed projection yield nothing. -/
theorem filterMap_comp_flushed_hydrated (es : List E) :
    List.filterMap ((@Act.flushedOut C E Out) ∘ Act.hydrated) es = [] := by
  induction es with
  | nil => rfl
  | cons e rest ih => simp [Act.flushedOut, Function.comp, ih]

/-- The loop final state equals hydration of the logged events from the
starting state, under the on_event no-op contract. -/
theorem taskLoop_replay (m : FsmM S C E SE) (eff : EffectsM S SE Out)
    (term : E → Bool) (nL : L → E → L) (nP : P → E → P) (nO : O → Out → O)
    (hnoop : ∀ s e, (m.on_event s e).2 = none → (m.on_event s e).1 = s) :
    ∀ (ins : List (Input C E)) (s : S) (se : SE) (l : L) (p : P) (o : O),
    hydrate m
        ((taskLoop m eff term nL nP nO s se l p o ins).trace.filterMap Act.loggedEvent)
        s =
      (taskLoop m eff term nL nP nO s se l p o ins).state := by
  intro ins
  induction ins with
  | nil => intro s se l p o; rfl
  | cons i rest ih =>
    intro s se l p o
    simp only [taskLoop]
    rcases ht : (m.step s i se).2.2 with _ | e
    · have hs := fsmM_step_none m s i se hnoop ht
      simp only [ht]
      rw [hs]
      simp only [List.filterMap_cons, List.filterMap_append, Act.loggedEvent,
        List.filterMap_map, filterMap_comp_logged_flushed, List.nil_append]
      exact ih _ _ _ _ _
    · have hs := fsmM_step_some m s i se e ht
      by_cases hterm : term e = true
      · simp only [ht, hterm, if_pos]
        simp only [List.filterMap_cons, Act.loggedEvent, List.filterMap_map,
          filterMap_comp_logged_flushed]
        simp [hydrate, hs]
      · simp only [Bool.not_eq_true] at hterm
        simp only [ht, hterm, Bool.false_eq_true, if_neg]
        rw [hs]
        simp only [if_false]
        simp only [List.filterMap_cons, List.filterMap_append, Act.loggedEvent,
          List.filterMap_map, filterMap_comp_logged_flushed, List.nil_append]
        rw [List.singleton_append, hydrate_cons]
        exact ih _ _ _ _ _

/-- C2: folding the logged events of a run, in order, through on_event
alone over the state the task started from (the default state hydrated with
the fed history) reproduces the live state after the run; the hydration
prefix of the trace applies the fed events and nothing else, and hydration
is insensitive to for_command and on_change and touches no effect handler. -/
theorem c2_replay_equivalence (m : FsmM S C E SE) (eff : EffectsM S SE Out)
    (term : E → Bool) (nL : L → E → L) (nP : P → E → P) (nO : O → Out → O)
    (hist : List E) (ins : List (Input C E)) (s0 : S) (se0 : SE) (l0 : L)
    (p0 : P) (o0 : O)
    (hnoop : ∀ s e, (m.on_event s e).2 = none → (m.on_event s e).1 = s)
    (T : TaskResult S SE L P O C E Out)
    (hT : T = task m eff term nL nP nO hist ins s0 se0 l0 p0 o0) :
    hydrate m (hist ++ T.trace.filterMap Act.loggedEvent) s0 = T.state
    ∧ T.trace.take hist.length = hist.map Act.hydrated
    ∧ (∀ (fc : S → C → SE → Option E × SE) (oc : S → E → SE → Change → SE)
        (es : List E) (s : S),
        hydrate { for_command := fc, on_event := m.on_event, on_change := oc } es s =
          hydrate m es s) := by
  subst hT
  refine ⟨?_, ?_, fun fc oc es s => rfl⟩
  · simp only [task]
    simp only [List.filterMap_append, List.filterMap_cons, Act.loggedEvent,
      List.filterMap_map, filterMap_comp_logged_flushed, filterMap_comp_logged_hydrated,
      List.nil_append, List.append_nil]
    rw [hydrate_append]
    exact taskLoop_replay m eff term nL nP nO hnoop ins _ _ _ _ _
  · simp only [task]
    rw [show hist.length = (hist.map (@Act.hydrated C E Out)).length by
      simp]
    rw [List.append_assoc]
    exact List.take_left _ _

/-- Witness for C2 at the counter machine: the fresh run processing Tick
then Reset logs both events, and replaying them over the default count
reproduces the final count. -/
theorem c2_replay_witness :
    hydrate counterFsm
        ([] ++ (task counterFsm (obEffects Int COut) counterTerm mpscNotify mpscNotify
            mpscNotify [] [Input.Event CEvent.Tick, Input.Event CEvent.Reset]
            0 [] chanOpenE chanOpenE chanOpenO).trace.filterMap Act.loggedEvent) 0 =
      (task counterFsm (obEffects Int COut) counterTerm mpscNotify mpscNotify
            mpscNotify [] [Input.Event CEvent.Tick, Input.Event CEvent.Reset]
            0 [] chanOpenE chanOpenE chanOpenO).state :=
  (c2_replay_equivalence counterFsm (obEffects Int COut) counterTerm mpscNotify
    mpscNotify mpscNotify [] [Input.Event CEvent.Tick, Input.Event CEvent.Reset]
    0 [] chanOpenE chanOpenE chanOpenO
    (by
      intro s e
      cases e with
      | Tick => simp [counterFsm]
      | Reset => by_cases hz : s = 0 <;> simp [counterFsm, hz])
    _ rfl).1

/-- No action of a per-input segment is a hydration action, and its only
consumed action is the segment's own input. -/
theorem segOf_no_hydrated (r : Input C E × Option E × List Out) :
    ∀ a ∈ segOf r, Act.isHydrated a = false := by
  rcases r with ⟨i, oe, outs⟩
  intro a ha
  rcases oe with _ | e
  · simp [segOf] at ha
    rcases ha with h | ⟨o, _, h⟩ <;> subst h <;> rfl
  · simp [segOf] at ha
    rcases ha with h | h | h | ⟨o, _, h⟩ <;> subst h <;> rfl

/-- Ordering from a split: when one class of actions lives only in the
first part and another only in the second, every action of the first class
comes before every action of the second. -/
theorem before_split (tr A B : List α) (P Q : α → Bool) (h : tr = A ++ B)
    (hA : ∀ a ∈ A, Q a = false) (hB : ∀ b ∈ B, P b = false) :
    ∀ i j (hi : i < tr.length) (hj : j < tr.length),
      P (tr.get ⟨i, hi⟩) = true → Q (tr.get ⟨j, hj⟩) = true → i < j := by
  subst h
  intro i j hi hj hP hQ
  have hiA : i < A.length := by
    by_contra hge
    push_neg at hge
    have hmem : (A ++ B).get ⟨i, hi⟩ ∈ B := by
      rw [List.get_eq_getElem, List.getElem_append_right hge]
      exact List.getElem_mem _
    rw [hB _ hmem] at hP
    cases hP
  have hjA : A.length ≤ j := by
    by_contra hlt
    push_neg at hlt
    have hmem : (A ++ B).get ⟨j, hj⟩ ∈ A := by
      rw [List.get_eq_getElem, List.getElem_append_left hlt]
      exact List.getElem_mem _
    rw [hA _ hmem] at hQ
    cases hQ
  omega

/-- The logged projection of the loop trace is the per-input events. -/
theorem flatten_segs_logged (recs : List (Input C E × Option E × List Out)) :
    ((recs.map segOf).flatten).filterMap Act.loggedEvent =
      recs.filterMap (fun r => r.2.1) := by
  induction recs with
  | nil => rfl
  | cons r rs ih =>
    rcases r with ⟨i, oe, outs⟩
    rcases oe with _ | e <;>
      simp [segOf, List.filterMap_append, Act.loggedEvent, List.filterMap_map,
        filterMap_comp_logged_flushed, ih, List.filterMap_cons]

/-- The flushed projection of the loop trace is the per-input outputs. -/
theorem flatten_segs_flushed (recs : List (Input C E × Option E × List Out)) :
    ((recs.map segOf).flatten).filterMap Act.flushedOut =
      (recs.map (fun r => r.2.2)).flatten := by
  induction recs with
  | nil => rfl
  | cons r rs ih =>
    rcases r with ⟨i, oe, outs⟩
    rcases oe with _ | e <;>
      simp [segOf, List.filterMap_append, Act.flushedOut, List.filterMap_map,
        filterMap_comp_flushed, ih, List.filterMap_cons]

/-- C7: in every run of the Machine task, hydration from the event-log feed
runs to completion and the effect handler initialisation together with the
flushing of all initialisation outputs happen before the first queued Input
is processed; thereafter, for each processed input, the produced event (if
any) is logged before that step's effect outputs are flushed, and events
and outputs are delivered strictly in the order step produced them. -/
theorem c7_ordering (m : FsmM S C E SE) (eff : EffectsM S SE Out)
    (term : E → Bool) (nL : L → E → L) (nP : P → E → P) (nO : O → Out → O)
    (hist : List E) (ins : List (Input C E)) (s0 : S) (se0 : SE) (l0 : L)
    (p0 : P) (o0 : O)
    (T : TaskResult S SE L P O C E Out)
    (hT : T = task m eff term nL nP nO hist ins s0 se0 l0 p0 o0)
    (recs : List (Input C E × Option E × List Out))
    (hrecs : recs = stepsRecs m eff term (hydrate m hist s0)
        (eff.drain_all (eff.init se0 (hydrate m hist s0))).2 ins)
    (initOuts : List Out)
    (hio : initOuts = (eff.drain_all (eff.init se0 (hydrate m hist s0))).1) :
    T.trace = hist.map Act.hydrated ++ Act.initialised ::
        (initOuts.map Act.flushed ++ (recs.map segOf).flatten)
    ∧ (∀ i j (hi : i < T.trace.length) (hj : j < T.trace.length),
        (T.trace.get ⟨i, hi⟩).isHydrated = true →
        (T.trace.get ⟨j, hj⟩).isConsumed = true → i < j)
    ∧ T.trace.take (hist.length + 1 + initOuts.length) =
        hist.map Act.hydrated ++ Act.initialised :: initOuts.map Act.flushed
    ∧ (∀ a ∈ T.trace.take (hist.length + 1 + initOuts.length), a.isConsumed = false)
    ∧ T.trace.filterMap Act.loggedEvent = recs.filterMap (fun r => r.2.1)
    ∧ T.trace.filterMap Act.flushedOut =
        initOuts ++ (recs.map (fun r => r.2.2)).flatten
    ∧ (∀ r ∈ recs, ∀ e, r.2.1 = some e →
        segOf r = Act.consumed r.1 :: Act.logged e :: Act.emitted e ::
          r.2.2.map Act.flushed) := by
  have htrace : T.trace = hist.map Act.hydrated ++ Act.initialised ::
      (initOuts.map Act.flushed ++ (recs.map segOf).flatten) := by
    subst hT hrecs hio
    simp only [task]
    rw [taskLoop_trace]
    simp
  refine ⟨htrace, ?_, ?_, ?_, ?_, ?_, ?_⟩
  · apply before_split T.trace (hist.map Act.hydrated)
      (Act.initialised :: (initOuts.map Act.flushed ++ (recs.map segOf).flatten))
      Act.isHydrated Act.isConsumed htrace
    · intro a ha
      rcases List.mem_map.mp ha with ⟨e, _, hEq⟩
      rw [← hEq]
      rfl
    · intro b hb
      rcases List.mem_cons.mp hb with hEq | hb2
      · rw [hEq]
        rfl
      · rcases List.mem_append.mp hb2 with hb3 | hb3
        · rcases List.mem_map.mp hb3 with ⟨o, _, hEq⟩
          rw [← hEq]
          rfl
        · rcases List.mem_flatten.mp hb3 with ⟨seg, hseg, hbseg⟩
          rcases List.mem_map.mp hseg with ⟨r, _, hEq⟩
          rw [← hEq] at hbseg
          exact segOf_no_hydrated r b hbseg
  · rw [htrace]
    rw [show hist.length + 1 + initOuts.length =
        (hist.map Act.hydrated ++ Act.initialised :: initOuts.map Act.flushed).length
      from by simp; omega]
    rw [show hist.map Act.hydrated ++ Act.initialised ::
        (initOuts.map Act.flushed ++ (recs.map segOf).flatten) =
        (hist.map Act.hydrated ++ Act.initialised :: initOuts.map Act.flushed) ++
          (recs.map segOf).flatten from by simp]
    exact List.take_left _ _
  · intro a ha
    rw [htrace] at ha
    rw [show hist.length + 1 + initOuts.length =
        (hist.map Act.hydrated ++ Act.initialised :: initOuts.map Act.flushed).length
      from by simp; omega] at ha
    rw [show hist.map Act.hydrated ++ Act.initialised ::
        (initOuts.map Act.flushed ++ (recs.map segOf).flatten) =
        (hist.map Act.hydrated ++ Act.initialised :: initOuts.map Act.flushed) ++
          (recs.map segOf).flatten from by simp] at ha
    rw [List.take_left] at ha
    rcases List.mem_append.mp ha with h1 | h1
    · rcases List.mem_map.mp h1 with ⟨e, _, hEq⟩
      rw [← hEq]
      rfl
    · rcases List.mem_cons.mp h1 with hEq | h2
      · rw [hEq]
        rfl
      · rcases List.mem_map.mp h2 with ⟨o, _, hEq⟩
        rw [← hEq]
        rfl
  · rw [htrace]
    simp only [List.filterMap_append, List.filterMap_cons, Act.loggedEvent,
      List.filterMap_map, filterMap_comp_logged_flushed, filterMap_comp_logged_hydrated,
      List.nil_append]
    exact flatten_segs_logged recs
  · rw [htrace]
    simp only [List.filterMap_append, List.filterMap_cons, Act.flushedOut,
      List.filterMap_map, filterMap_comp_flushed, filterMap_comp_flushed_hydrated,
      List.nil_append]
    rw [flatten_segs_flushed recs]
  · intro r hr e he
    rcases r with ⟨i, oe, outs⟩
    simp at he
    subst he
    rfl

/-- Witness for C7 at the counter machine: the trace of a run fed one
historical Tick and one queued Tick decomposes into hydration, then
initialisation, then the per-input segments. -/
theorem c7_ordering_witness :
    (task counterFsm (obEffects Int COut) counterTerm mpscNotify mpscNotify mpscNotify
        [CEvent.Tick] [Input.Event CEvent.Tick] 0 [] chanOpenE chanOpenE chanOpenO).trace =
      [CEvent.Tick].map Act.hydrated ++ Act.initialised ::
        (([] : List COut).map Act.flushed ++
          ((stepsRecs counterFsm (obEffects Int COut) counterTerm
              (hydrate counterFsm [CEvent.Tick] 0)
              ((obEffects Int COut).drain_all
                ((obEffects Int COut).init [] (hydrate counterFsm [CEvent.Tick] 0))).2
              [Input.Event CEvent.Tick]).map segOf).flatten) :=
  (c7_ordering counterFsm (obEffects Int COut) counterTerm mpscNotify mpscNotify
    mpscNotify [CEvent.Tick] [Input.Event CEvent.Tick] 0 [] chanOpenE chanOpenE
    chanOpenO _ rfl _ rfl [] rfl).1

/-- C10: OutputBuffer drain_all yields every buffered item and leaves the
buffer empty, a second drain_all with no intervening push yields nothing,
and in the runtime loop every step starts from an emptied buffer, so each
buffered output is flushed at most once: the per-step drained outputs are
exactly the outputs the step itself produced from an empty buffer. -/
theorem c10_drain_once (b : OutputBuffer A) (m : FsmM S C E (OutputBuffer Out))
    (term : E → Bool) (s : S) (ins : List (Input C E)) :
    obDrainAll b = (b, [])
    ∧ (obDrainAll (obDrainAll b).2).1 = []
    ∧ stepsRecs m (obEffects S Out) term s [] ins = freshRecs m term s ins := by
  refine ⟨rfl, rfl, ?_⟩
  induction ins generalizing s with
  | nil => rfl
  | cons i rest ih =>
    simp only [stepsRecs, freshRecs,
      show (obEffects S Out).drain_all = obDrainAll from rfl, obDrainAll]
    rw [ih]

/-- Witness for C10 at a concrete buffer and the counter machine. -/
theorem c10_drain_once_witness :
    obDrainAll ([3, 4] : OutputBuffer Nat) = ([3, 4], [])
    ∧ (obDrainAll (obDrainAll ([3, 4] : OutputBuffer Nat)).2).1 = []
    ∧ stepsRecs counterFsm (obEffects Int COut) counterTerm 9
        [] [Input.Event CEvent.Tick] =
      freshRecs counterFsm counterTerm 9 [Input.Event CEvent.Tick] :=
  c10_drain_once [3, 4] counterFsm counterTerm 9 [Input.Event CEvent.Tick]

/-- When flushing succeeds every recorded attempt succeeded. -/
theorem flushAll_ok (nO : O → Out → Except MErr O) :
    ∀ (xs : List Out) (o o2 : O),
      (flushAll (E := E) nO o xs).1 = .ok o2 →
      ∀ c ∈ (flushAll (E := E) nO o xs).2, MCall.failure c = none := by
  intro xs
  induction xs with
  | nil =>
    intro o o2 h c hc
    simp [flushAll] at hc
  | cons x rest ih =>
    intro o o2 h c hc
    rcases hn : nO o x with err | o1
    · simp only [flushAll, hn] at h
      cases h
    · simp only [flushAll, hn] at h hc
      rcases List.mem_cons.mp hc with hEq | hc2
      · subst hEq
        rfl
      · exact ih o1 o2 h c hc2

/-- When flushing fails the failed attempt is recorded last, after only
successful attempts, with the returned error. -/
theorem flushAll_error (nO : O → Out → Except MErr O) :
    ∀ (xs : List Out) (o : O) (err : MErr),
      (flushAll (E := E) nO o xs).1 = .error err →
      ∃ pre c, (flushAll (E := E) nO o xs).2 = pre ++ [c]
        ∧ MCall.failure c = some err
        ∧ ∀ x2 ∈ pre, MCall.failure x2 = none := by
  intro xs
  induction xs with
  | nil =>
    intro o err h
    cases h
  | cons x rest ih =>
    intro o err h
    rcases hn : nO o x with err0 | o1
    · simp only [flushAll, hn] at h ⊢
      have herr : err0 = err := by
        cases h
        rfl
      subst herr
      exact ⟨[], .outCall x (some err0), by simp, rfl, by simp⟩
    · simp only [flushAll, hn] at h ⊢
      rcases ih o1 err h with ⟨pre, c, h1, h2, h3⟩
      refine ⟨.outCall x none :: pre, c, by simp [h1], h2, ?_⟩
      intro x2 hx2
      rcases List.mem_cons.mp hx2 with hEq | hx3
      · subst hEq
        rfl
      · exact h3 x2 hx3

/-- When the machine crate loop completes, every notify attempt succeeded. -/
theorem mloop_ok (m : FsmM S C E SE) (eff : EffectsM S SE Out)
    (nL : L → E → Except MErr L) (nO : O → Out → Except MErr O) :
    ∀ (ins : List (Input C E)) (s : S) (se : SE) (l : L) (o : O),
      (mTaskLoop m eff nL nO s se l o ins).1 = .ok () →
      ∀ c ∈ (mTaskLoop m eff nL nO s se l o ins).2, MCall.failure c = none := by
  intro ins
  induction ins with
  | nil =>
    intro s se l o h c hc
    simp [mTaskLoop] at hc
  | cons i rest ih =>
    intro s se l o h c hc
    rcases ht : (m.step s i se).2.2 with _ | e
    · simp only [mTaskLoop, ht] at h hc
      rcases hfl : flushAll (E := E) nO o (eff.drain_all (m.step s i se).2.1).1
        with ⟨res, tr⟩
      rcases res with err | o1
      · rw [hfl] at h
        cases h
      · rw [hfl] at h hc
        rcases List.mem_append.mp hc with hc1 | hc2
        · have := flushAll_ok (E := E) nO _ o o1 (by rw [hfl])
          exact this c (by rw [hfl]; exact hc1)
        · exact ih _ _ _ _ h c hc2
    · rcases hnl : nL l e with err | l1
      · simp only [mTaskLoop, ht, hnl] at h
        cases h
      · simp only [mTaskLoop, ht, hnl] at h hc
        rcases hfl : flushAll (E := E) nO o (eff.drain_all (m.step s i se).2.1).1
          with ⟨res, tr⟩
        rcases res with err | o1
        · rw [hfl] at h
          cases h
        · rw [hfl] at h hc
          rcases List.mem_cons.mp hc with hEq | hc2
          · subst hEq
            rfl
          · rcases List.mem_append.mp hc2 with hc3 | hc4
            · have := flushAll_ok (E := E) nO _ o o1 (by rw [hfl])
              exact this c (by rw [hfl]; exact hc3)
            · exact ih _ _ _ _ h c hc4

/-- When the machine crate loop aborts, the failed notify attempt is
recorded last, after only successful attempts, and its error is the loop
result. -/
theorem mloop_error (m : FsmM S C E SE) (eff : EffectsM S SE Out)
    (nL : L → E → Except MErr L) (nO : O → Out → Except MErr O) :
    ∀ (ins : List (Input C E)) (s : S) (se : SE) (l : L) (o : O) (err : MErr),
      (mTaskLoop m eff nL nO s se l o ins).1 = .error err →
      ∃ pre c, (mTaskLoop m eff nL nO s se l o ins).2 = pre ++ [c]
        ∧ MCall.failure c = some err
        ∧ ∀ x ∈ pre, MCall.failure x = none := by
  intro ins
  induction ins with
  | nil =>
    intro s se l o err h
    cases h
  | cons i rest ih =>
    intro s se l o err h
    rcases ht : (m.step s i se).2.2 with _ | e
    · simp only [mTaskLoop, ht] at h ⊢
      rcases hfl : flushAll (E := E) nO o (eff.drain_all (m.step s i se).2.1).1
        with ⟨res, tr⟩
      rcases res with err0 | o1
      · try rw [hfl] at h
        try rw [hfl]
        have h2 : (Except.error err0 : Except MErr Unit) = Except.error err := h
        have herr : err0 = err := by
          cases h2
          rfl
        subst herr
        rcases flushAll_error (E := E) nO _ o err0 (by rw [hfl]) with ⟨pre, c, h1, h2b, h3⟩
        rw [hfl] at h1
        exact ⟨pre, c, h1, h2b, h3⟩
      · try rw [hfl] at h
        try rw [hfl]
        have h2 : (mTaskLoop m eff nL nO (m.step s i se).1
            (eff.drain_all (m.step s i se).2.1).2 l o1 rest).1 = Except.error err := h
        rcases ih _ _ _ _ err h2 with ⟨pre, c, h1, h2b, h3⟩
        refine ⟨tr ++ pre, c, ?_, h2b, ?_⟩
        · show tr ++ (mTaskLoop m eff nL nO (m.step s i se).1
            (eff.drain_all (m.step s i se).2.1).2 l o1 rest).2 = (tr ++ pre) ++ [c]
          rw [h1, List.append_assoc]
        · intro x hx
          rcases List.mem_append.mp hx with hx1 | hx2
          · have := flushAll_ok (E := E) nO _ o o1 (by rw [hfl])
            exact this x (by rw [hfl]; exact hx1)
          · exact h3 x hx2
    · rcases hnl : nL l e with err0 | l1
      · simp only [mTaskLoop, ht, hnl] at h ⊢
        have herr : err0 = err := by
          cases h
          rfl
        subst herr
        exact ⟨[], .logCall e (some err0), by simp, rfl, by simp⟩
      · simp only [mTaskLoop, ht, hnl] at h ⊢
        rcases hfl : flushAll (E := E) nO o (eff.drain_all (m.step s i se).2.1).1
          with ⟨res, tr⟩
        rcases res with err0 | o1
        · try rw [hfl] at h
          try rw [hfl]
          have h2 : (Except.error err0 : Except MErr Unit) = Except.error err := h
          have herr : err0 = err := by
            cases h2
            rfl
          subst herr
          rcases flushAll_error (E := E) nO _ o err0 (by rw [hfl]) with ⟨pre, c, h1, h2b, h3⟩
          rw [hfl] at h1
          have h1b : tr = pre ++ [c] := h1
          refine ⟨.logCall e none :: pre, c, ?_, h2b, ?_⟩
          · show MCall.logCall e none :: tr = (MCall.logCall e none :: pre) ++ [c]
            simp [h1b]
          · intro x hx
            rcases List.mem_cons.mp hx with hEq | hx2
            · subst hEq
              rfl
            · exact h3 x hx2
        · try rw [hfl] at h
          try rw [hfl]
          have h2 : (mTaskLoop m eff nL nO (m.step s i se).1
              (eff.drain_all (m.step s i se).2.1).2 l1 o1 rest).1 = Except.error err := h
          rcases ih _ _ _ _ err h2 with ⟨pre, c, h1, h2b, h3⟩
          refine ⟨.logCall e none :: (tr ++ pre), c, ?_, h2b, ?_⟩
          · show MCall.logCall e none :: (tr ++ (mTaskLoop m eff nL nO (m.step s i se).1
              (eff.drain_all (m.step s i se).2.1).2 l1 o1 rest).2) =
              (MCall.logCall e none :: (tr ++ pre)) ++ [c]
            rw [h1, List.cons_append, List.append_assoc]
          · intro x hx
            rcases List.mem_cons.mp hx with hEq | hx2
            · subst hEq
              rfl
            · rcases List.mem_append.mp hx2 with hx3 | hx4
              · have := flushAll_ok (E := E) nO _ o o1 (by rw [hfl])
                exact this x (by rw [hfl]; exact hx3)
              · exact h3 x hx4

/-- C5 amended: in the machine crate task, whenever an Adapter notify fails
with a channel-closed error while appending to the event log or flushing an
output, the task aborts, returning that error, after only successful
attempts: the failed attempt is the last notify and no item is retried; a
task that completes made only successful attempts. -/
theorem c5_abort_amended (m : FsmM S C E SE) (eff : EffectsM S SE Out)
    (nL : L → E → Except MErr L) (nO : O → Out → Except MErr O)
    (hist : List E) (ins : List (Input C E)) (s0 : S) (se0 : SE) (l0 : L) (o0 : O) :
    ((mTask m eff nL nO hist ins s0 se0 l0 o0).1 = .ok () →
      ∀ c ∈ (mTask m eff nL nO hist ins s0 se0 l0 o0).2, MCall.failure c = none)
    ∧ (∀ err, (mTask m eff nL nO hist ins s0 se0 l0 o0).1 = .error err →
      ∃ pre c, (mTask m eff nL nO hist ins s0 se0 l0 o0).2 = pre ++ [c]
        ∧ MCall.failure c = some err
        ∧ ∀ x ∈ pre, MCall.failure x = none) := by
  constructor
  · intro h c hc
    simp only [mTask] at h hc
    rcases hfl : flushAll (E := E) nO o0
        (eff.drain_all (eff.init se0 (hydrate m hist s0))).1 with ⟨res, tr0⟩
    rcases res with err | o1
    · try rw [hfl] at h
      cases h
    · try rw [hfl] at h
      try rw [hfl] at hc
      have h2 : (mTaskLoop m eff nL nO (hydrate m hist s0)
          (eff.drain_all (eff.init se0 (hydrate m hist s0))).2 l0 o1 ins).1 =
          Except.ok () := h
      have hc2 : c ∈ tr0 ++ (mTaskLoop m eff nL nO (hydrate m hist s0)
          (eff.drain_all (eff.init se0 (hydrate m hist s0))).2 l0 o1 ins).2 := hc
      rcases List.mem_append.mp hc2 with hc3 | hc3
      · have := flushAll_ok (E := E) nO _ o0 o1 (by rw [hfl])
        exact this c (by rw [hfl]; exact hc3)
      · exact mloop_ok m eff nL nO ins _ _ _ _ h2 c hc3
  · intro err h
    simp only [mTask] at h ⊢
    rcases hfl : flushAll (E := E) nO o0
        (eff.drain_all (eff.init se0 (hydrate m hist s0))).1 with ⟨res, tr0⟩
    rcases res with err0 | o1
    · try rw [hfl] at h
      try rw [hfl]
      have h2 : (Except.error err0 : Except MErr Unit) = Except.error err := h
      have herr : err0 = err := by
        cases h2
        rfl
      subst herr
      rcases flushAll_error (E := E) nO _ o0 err0 (by rw [hfl]) with ⟨pre, c, h1, h2b, h3⟩
      rw [hfl] at h1
      exact ⟨pre, c, h1, h2b, h3⟩
    · try rw [hfl] at h
      try rw [hfl]
      have h2 : (mTaskLoop m eff nL nO (hydrate m hist s0)
          (eff.drain_all (eff.init se0 (hydrate m hist s0))).2 l0 o1 ins).1 =
          Except.error err := h
      rcases mloop_error m eff nL nO ins _ _ _ _ err h2 with ⟨pre, c, h1, h2b, h3⟩
      refine ⟨tr0 ++ pre, c, ?_, h2b, ?_⟩
      · show tr0 ++ (mTaskLoop m eff nL nO (hydrate m hist s0)
            (eff.drain_all (eff.init se0 (hydrate m hist s0))).2 l0 o1 ins).2 =
            (tr0 ++ pre) ++ [c]
        rw [h1, List.append_assoc]
      · intro x hx
        rcases List.mem_append.mp hx with hx1 | hx2
        · have := flushAll_ok (E := E) nO _ o0 o1 (by rw [hfl])
          exact this x (by rw [hfl]; exact hx1)
        · exact h3 x hx2

/-- Witness for C5 amended: the machine crate run of the counter with a
closed event log channel aborts with ChannelClosed, its failed log notify
recorded last after only successful attempts. -/
theorem c5_abort_witness :
    ∃ pre c, c5mrun.2 = pre ++ [c]
      ∧ MCall.failure c = some MErr.ChannelClosed
      ∧ ∀ x ∈ pre, MCall.failure x = none := by
  unfold c5mrun
  exact (c5_abort_amended counterFsm (obEffects Int COut)
    (fun (_ : Unit) _ => Except.error MErr.ChannelClosed)
    (fun (o : Unit) _ => Except.ok o)
    [] [Input.Event CEvent.Tick] 0 [] () ()).2 MErr.ChannelClosed (by rfl)

/-- C5 counterexample: in edfsm-machine, the tokio mpsc send of the logged
event fails because the destination channel is closed, yet the task does
not abort: the Adapter impl discards the send error, the run completes
normally with the event dropped from the log channel, and the loop goes on
to forward the event to the event adapters. -/
theorem c5_counterexample :
    chanSend chanClosedE CEvent.Tick = .error MErr.ChannelClosed
    ∧ c5run = Except.ok (TaskResult.mk 1 [] chanClosedE
        (Chan.mk [CEvent.Tick] false) chanOpenO
        [Act.initialised, Act.consumed (Input.Event CEvent.Tick),
          Act.logged CEvent.Tick, Act.emitted CEvent.Tick]) := by
  exact ⟨rfl, rfl⟩
